import Mathlib

/-!
Verification of the segmented audit log writer/reader/streamer, the session
watcher and the capture daemon of the ai-memory repository.

The Go source is shallowly embedded: byte slices become `List Nat`, the audit
directory becomes an association list from file name to on-disk content, the
`bufio`/`gzip` writer stack becomes an explicit unflushed-byte buffer (the
compressor is treated as a transparent byte channel, since the shard reader
inverts it on open), and wall-clock timestamps become explicit parameters.
Go's lexicographic byte order on strings (used by `sort.Strings`) is embedded
as `strLt`/`strLe` over the character data of a `String`.
-/

namespace AIMemory

/-- Raw bytes of a line, one `Nat` per byte. -/
abbrev Byte := Nat

/-- The newline byte appended by `WriteRawLine` and used by `ReadBytes`. -/
def nlByte : Byte := 10

/-- Bytes of a string literal (ASCII contents throughout this development). -/
def strBytes (s : String) : List Byte := s.data.map Char.toNat

/-- Lexicographic order on character lists, mirroring Go's byte-wise `<` on
strings (all strings involved are ASCII, so char order equals byte order). -/
def charsLt : List Char → List Char → Bool
  | [], [] => false
  | [], _ :: _ => true
  | _ :: _, [] => false
  | a :: as, b :: bs =>
    if a.toNat < b.toNat then true
    else if b.toNat < a.toNat then false
    else charsLt as bs

/-- Go's `<` on strings. -/
def strLt (a b : String) : Bool := charsLt a.data b.data

/-- Go's `<=` on strings, as used by `sort.Strings`. -/
def strLe (a b : String) : Bool := strLt a b || a == b

/-- Lookup in an association list keyed by file name or path. -/
def findVal {α : Type} : List (String × α) → String → Option α
  | [], _ => none
  | p :: ps, k => if p.1 = k then some p.2 else findVal ps k

/-- Pointwise update of the entries of an association list holding key `k`. -/
def updateEntry {α : Type} (l : List (String × α)) (k : String) (f : α → α) :
    List (String × α) :=
  l.map (fun p => if p.1 = k then (p.1, f p.2) else p)

/-- Keys of an association list. -/
def keysOf {α : Type} (l : List (String × α)) : List String := l.map Prod.fst

/-- Sort an association list by key, as `sort.Strings` sorts the globbed shard
file names (`NewShardIterator`, `findLatestShard`). -/
def sortShards {α : Type} (l : List (String × α)) : List (String × α) :=
  l.insertionSort (fun p q => strLe p.1 q.1 = true)

/-! ## Segmented Log Writer (`AuditLogger`, src/unnamed/part_002) -/

/-- State of an `AuditLogger`: the audit directory (`files` maps shard file
name to its on-disk bytes), the currently open shard (`currentName`), the
bytes sitting in its buffered writer that have not been flushed to disk
(`currentBuf`), the `ShardWriter.size` counter of raw bytes written
(`currentSize`), and the construction-time configuration. -/
structure AuditLogger where
  files : List (String × List Byte)
  currentName : String
  currentBuf : List Byte
  currentSize : Nat
  maxShardSize : Nat
  compressShards : Bool
deriving DecidableEq

/-- Shard file name generated by `rotateShard` from a wall-clock timestamp:
`shard_<timestamp>.jsonl` or `.jsonl.gz`. -/
def shardFileName (timestamp : String) (compress : Bool) : String :=
  "shard_" ++ timestamp ++ (if compress then ".jsonl.gz" else ".jsonl")

/-- Flush of the open shard's buffered writer (`ShardWriter.Flush`): the
buffered bytes move to the shard's on-disk content. -/
def flushShard (a : AuditLogger) : AuditLogger :=
  { a with
    files := updateEntry a.files a.currentName (· ++ a.currentBuf)
    currentBuf := [] }

/-- Embedding of `rotateShard`: close (flush) the current shard, generate the
new file name from the given timestamp, `os.Create` it (truncating an existing
file of the same name, as `os.Create` does), and make it current. -/
def rotateShard (a : AuditLogger) (timestamp : String) : AuditLogger :=
  let a1 := flushShard a
  let nm := shardFileName timestamp a.compressShards
  let files1 :=
    if (findVal a1.files nm).isSome then updateEntry a1.files nm (fun _ => [])
    else a1.files ++ [(nm, [])]
  { a1 with files := files1, currentName := nm, currentBuf := [], currentSize := 0 }

/-- Newline normalization in `WriteRawLine`: append a single `'\n'` when the
input is nonempty and does not already end in one. -/
def addNewline (line : List Byte) : List Byte :=
  if 0 < line.length ∧ line.getLast? ≠ some nlByte then line ++ [nlByte] else line

/-- Embedding of `AuditLogger.WriteRawLine`: rotate first when the current
shard's size already meets the maximum, then write the newline-normalized
bytes through the buffered writer and grow the size counter by the number of
bytes written. The `timestamp` parameter is the wall clock read inside
`rotateShard` if rotation happens. -/
def writeRawLine (a : AuditLogger) (timestamp : String) (line : List Byte) :
    AuditLogger :=
  let a1 := if a.maxShardSize ≤ a.currentSize then rotateShard a timestamp else a
  let data := addNewline line
  { a1 with
    currentBuf := a1.currentBuf ++ data
    currentSize := a1.currentSize + data.length }

/-- Embedding of `NewAuditLogger`: fresh state plus the initial `rotateShard`. -/
def newAuditLogger (timestamp : String) (maxShardSize : Nat) (compress : Bool) :
    AuditLogger :=
  rotateShard
    { files := [], currentName := "", currentBuf := [], currentSize := 0,
      maxShardSize := maxShardSize, compressShards := compress }
    timestamp

/-- Embedding of `AuditLogger.Close`: flush and close the open shard. -/
def closeLogger (a : AuditLogger) : AuditLogger := flushShard a

/-- A whole write history: one `WriteRawLine` per element, each carrying the
wall-clock timestamp `rotateShard` would read at that write. -/
def writeAll (a : AuditLogger) (ws : List (String × List Byte)) : AuditLogger :=
  ws.foldl (fun acc p => writeRawLine acc p.1 p.2) a

/-! ## `WriteEvent` records -/

/-- JSON values occurring in audit records (strings and integers suffice for
the fields the claims are about). -/
inductive JVal where
  | str : String → JVal
  | num : Int → JVal
deriving DecidableEq

/-- An audit record: the key/value map passed to `WriteEvent`, in insertion
order (Go's `json.Marshal` of a map sorts keys; only the set of fields and
their values matter to the claims). -/
abbrev AuditRec := List (String × JVal)

/-- Rendering of a JSON value. -/
def encodeJVal : JVal → String
  | .str s => "\"" ++ s ++ "\""
  | .num n => toString n

/-- Rendering of an audit record as one JSON object line (`json.Marshal`). -/
def encodeRec (r : AuditRec) : String :=
  "\x7b" ++
    String.intercalate "," (r.map (fun p => "\"" ++ p.1 ++ "\":" ++ encodeJVal p.2)) ++
    "\x7d"

/-- Embedding of `AuditLogger.WriteEvent`: add `_audit_timestamp` (the ingest
time `time.Now().Unix()`) and `_audit_shard` (the base name of
`a.currentShard.path`, read before `WriteRawLine` runs), serialize, and
delegate to `WriteRawLine`. Returns the new state and the record written. -/
def writeEvent (a : AuditLogger) (timestamp : String) (nowUnix : Int)
    (fields : AuditRec) : AuditLogger × AuditRec :=
  let ev := fields ++
    [("_audit_timestamp", JVal.num nowUnix), ("_audit_shard", JVal.str a.currentName)]
  (writeRawLine a timestamp (strBytes (encodeRec ev)), ev)

/-! ## Shard Reader / Iterator (src/unnamed/part_001) -/

/-- Line decomposition performed by repeated `bufio.ReadBytes('\n')` until
`io.EOF`: each returned line includes its trailing newline; a final chunk not
terminated by a newline is returned together with `io.EOF` and hence dropped
by `ShardIterator.Next`. -/
def splitLines : List Byte → List (List Byte)
  | [] => []
  | b :: bs =>
    if b = nlByte then [b] :: splitLines bs
    else
      match splitLines bs with
      | [] => []
      | l :: ls => (b :: l) :: ls

/-- Embedding of a `ShardIterator` drained to `io.EOF`: glob the shard files,
sort the names lexically, and concatenate the lines of each shard in order
(`NewShardIterator` + repeated `Next`). -/
def iterLines (dir : List (String × List Byte)) : List (List Byte) :=
  ((sortShards dir).map (fun p => splitLines p.2)).flatten

/-- A single complete line: nonempty, newline-terminated, with no interior
newline. `addNewline` produces exactly such chunks for payloads that are
nonempty and newline-free (or already so terminated). -/
def IsLine (l : List Byte) : Prop :=
  l ≠ [] ∧ l.getLast? = some nlByte ∧ nlByte ∉ l.dropLast

instance (l : List Byte) : Decidable (IsLine l) := by
  unfold IsLine; infer_instance

/-- Directory contents as durably visible to a reader once the writer has
flushed (the replay scenario reads after `Close`, or after the 5s background
flush): the current shard's buffered bytes included. -/
def closedFiles (a : AuditLogger) : List (String × List Byte) :=
  (closeLogger a).files

/-- Shard content made of complete lines only (every closed shard, and the
current shard between whole-line writes, has this shape). -/
def LinesOnly (c : List Byte) : Prop :=
  ∃ ls : List (List Byte), (∀ l ∈ ls, IsLine l) ∧ c = ls.flatten

/-- Writer invariant relating a logger state to the sequence of lines written
so far: the directory is nonempty, the current shard is its last-created
file, file names strictly increase in creation order, every shard holds
complete lines, and the shards' lines in creation order are exactly the lines
written. -/
def WriterInv (a : AuditLogger) (written : List (List Byte)) : Prop :=
  a.files ≠ [] ∧
    (keysOf a.files).getLast? = some a.currentName ∧
    List.Pairwise (fun x y => strLt x y = true) (keysOf a.files) ∧
    (∀ p ∈ closedFiles a, LinesOnly p.2) ∧
    ((closedFiles a).map (fun p => splitLines p.2)).flatten = written

/-! ## Streamer live tail (`tailShard`, src/unnamed/part_001) -/

/-- Directory snapshot seen by the tailing streamer: shard file name mapped to
the lines flushed to that shard so far (this claim set is about line delivery
order, so shard content is modeled at line granularity here). -/
abbrev TDir := List (String × List String)

/-- Embedding of `Streamer.findLatestShard`: glob the shard files, sort the
names, return the last; `none` models the empty-glob result `""`. -/
def findLatestShard (dir : TDir) : Option String :=
  ((sortShards dir).map Prod.fst).getLast?

/-- Tailing position: the shard file currently open for tailing and the number
of its lines already consumed. -/
structure TailState where
  current : String
  pos : Nat
deriving DecidableEq

/-- Lines of a named shard in a directory snapshot. -/
def shardLines (dir : TDir) (name : String) : List String :=
  (findVal dir name).getD []

/-- One `tailShard` ticker iteration against a directory snapshot: read lines
until `io.EOF`, delivering each to the handler; at EOF check
`findLatestShard`; if it differs from the shard being tailed, close it and
switch tailing to the latest shard (the recursive `tailShard` call reads
nothing until its own next tick); otherwise keep the position and wait. -/
def tailTick (dir : TDir) (st : TailState) : List String × TailState :=
  let content := shardLines dir st.current
  let emitted := content.drop st.pos
  match findLatestShard dir with
  | some latest =>
    if latest = st.current then (emitted, ⟨st.current, content.length⟩)
    else (emitted, ⟨latest, 0⟩)
  | none => (emitted, ⟨st.current, content.length⟩)

/-- A run of consecutive ticks; the n-th tick sees the n-th directory
snapshot, so writer rotations between ticks are the changes between
consecutive snapshots. Returns all delivered lines in order. -/
def tailRun : List TDir → TailState → List String × TailState
  | [], st => ([], st)
  | d :: ds, st =>
    let t := tailTick d st
    let r := tailRun ds t.2
    (t.1 ++ r.1, r.2)

/-! ## `FilteredStream` (src/unnamed/part_001) -/

/-- Embedding of `StreamFilter`: zero values (`""`, `time.Time{}`) mean the
corresponding predicate is disabled; the zero time is modeled as `none`. -/
structure StreamFilter where
  sessionID : String
  tool : String
  startTime : Option Int
  endTime : Option Int
deriving DecidableEq

/-- Result of `json.Unmarshal` on a line, restricted to the three fields the
filter inspects; a field is `none` when absent or when the Go type assertion
(`.(string)`, `.(float64)`) fails. -/
structure ParsedEvent where
  session : Option String
  tool : Option String
  timestamp : Option Int
deriving DecidableEq

/-- Filter predicate of the wrapped handler in `FilteredStream`, for a line
that parsed successfully: `true` means the line is forwarded to the inner
handler, `false` that the wrapper returns `nil` and skips it. -/
def passesFilter (f : StreamFilter) (e : ParsedEvent) : Bool :=
  let sessionSkip :=
    f.sessionID ≠ "" &&
      (match e.session with | some sid => sid ≠ f.sessionID | none => false)
  let toolSkip :=
    f.tool ≠ "" &&
      (match e.tool with | some t => t ≠ f.tool | none => false)
  let startSkip :=
    match f.startTime, e.timestamp with
    | some t0, some ts => ts < t0
    | _, _ => false
  let endSkip :=
    match f.endTime, e.timestamp with
    | some t1, some ts => t1 < ts
    | _, _ => false
  !sessionSkip && !toolSkip && !startSkip && !endSkip

/-- Decision of `FilteredStream`'s wrapped handler on one line: a line that
fails to parse is forwarded unconditionally, a parsed line is forwarded iff it
passes the filter. `parse` stands for `json.Unmarshal`. -/
def filteredForward (f : StreamFilter) (parse : String → Option ParsedEvent)
    (line : String) : Bool :=
  match parse line with
  | none => true
  | some e => passesFilter f e

/-- Lines a `FilteredStream` over the given history forwards to the handler. -/
def filteredOutput (f : StreamFilter) (parse : String → Option ParsedEvent)
    (lines : List String) : List String :=
  lines.filter (fun l => filteredForward f parse l)

/-! ## Session Watcher (src/internal/watcher/watcher.go) -/

/-- Embedding of `watcher.Event` (the `Data` payload is represented by the raw
line it was parsed from, which is what every claim inspects). -/
structure WEvent where
  type : String
  tool : String
  sessionID : String
  path : String
  rawLine : List Byte
deriving DecidableEq

/-- Embedding of `SessionTail`: per-file tail state (the open handle and
buffered reader are implicit in `lastOffset`). -/
structure SessionTail where
  path : String
  lastOffset : Nat
  sessionID : String
  tool : String
deriving DecidableEq

/-- Watcher state: the set of directories registered with the filesystem
notifier (`watchedPaths`), the log of `watcher.Add` calls made to the
notifier (`notifierAdds`, to state registration idempotence), and the tracked
files (`activeSessions`). -/
structure SessionWatcher where
  watchedPaths : List String
  notifierAdds : List String
  activeSessions : List (String × SessionTail)
deriving DecidableEq

/-- Split of a character list at every occurrence of a separator. -/
def splitChars (sep : Char) : List Char → List (List Char)
  | [] => [[]]
  | c :: cs =>
    let r := splitChars sep cs
    if c = sep then [] :: r
    else
      match r with
      | [] => [[c]]
      | h :: t => (c :: h) :: t

/-- Slash-separated components of a path. -/
def pathParts (p : String) : List String :=
  (splitChars '/' p.data).map String.mk

/-- Base name of a path (`filepath.Base`, up to Go's trailing-slash and
empty-path edge cases, which no watched path exercises). -/
def pathBase (p : String) : String := ((pathParts p).getLast?).getD p

/-- Directory of a path (`filepath.Dir`, same caveat: Go returns "." where
this returns "" — both make `detectToolFromPath` answer "unknown"). -/
def pathDir (p : String) : String :=
  String.intercalate "/" ((pathParts p).dropLast)

/-- Embedding of `detectToolFromPath`. -/
def detectToolFromPath (path : String) : String :=
  let dir := pathDir path
  if pathBase dir = "sessions" ∧ pathBase (pathDir dir) = ".claude-code" then
    "claude-code"
  else if pathBase dir = ".aider" then "aider"
  else "unknown"

/-- Event-emitting loop body of `readNewLines` over the complete lines read:
one "message" `Event` per line, carrying the session id known *before* that
line was parsed; on a successful parse (`sid line = some v`, standing for
`json.Unmarshal` plus the `sessionId` field lookup) the session id is cached
when not already set. Returns the events, the advanced offset and the final
session id. -/
def emitLines (sid : List Byte → Option String) (path tool : String) :
    List (List Byte) → Nat → String → List WEvent × Nat × String
  | [], off, s => ([], off, s)
  | l :: ls, off, s =>
    let ev : WEvent :=
      { type := "message", tool := tool, sessionID := s, path := path, rawLine := l }
    let s' := if s = "" then (sid l).getD s else s
    let r := emitLines sid path tool ls (off + l.length) s'
    (ev :: r.1, r.2.1, r.2.2)

/-- Embedding of `SessionWatcher.readNewLines`: seek to `lastOffset`, read the
complete lines appended since, emit one "message" event per line and advance
the offset by each line's length (a final unterminated chunk arrives with
`io.EOF` and is neither emitted nor consumed). -/
def readNewLines (sid : List Byte → Option String) (content : List Byte)
    (t : SessionTail) : List WEvent × SessionTail :=
  let r := emitLines sid t.path t.tool (splitLines (content.drop t.lastOffset))
    t.lastOffset t.sessionID
  (r.1, { t with lastOffset := r.2.1, sessionID := r.2.2 })

/-- Embedding of `SessionWatcher.startTailing` against file contents `fs`:
a no-op for a path already tracked; otherwise open the file (an open failure
leaves the state unchanged), read the whole existing content as backlog when
the file is nonempty, set the offset to the file's size, record the tail and
emit one "session_start" event after the backlog messages. -/
def startTailing (sid : List Byte → Option String)
    (fs : List (String × List Byte)) (w : SessionWatcher) (path : String) :
    SessionWatcher × List WEvent :=
  if (findVal w.activeSessions path).isSome then (w, [])
  else
    match findVal fs path with
    | none => (w, [])
    | some content =>
      let t0 : SessionTail :=
        { path := path, lastOffset := 0, sessionID := "",
          tool := detectToolFromPath path }
      let mr :=
        if content.length = 0 then (([] : List WEvent), t0)
        else
          let r := readNewLines sid content t0
          (r.1, { r.2 with lastOffset := content.length })
      let startEv : WEvent :=
        { type := "session_start", tool := mr.2.tool, sessionID := "",
          path := path, rawLine := [] }
      ({ w with activeSessions := w.activeSessions ++ [(path, mr.2)] },
        mr.1 ++ [startEv])

/-- Filesystem as seen by `WatchDirectory`: the set of existing directories
and the contents of the files. -/
structure Fs where
  dirs : List String
  files : List (String × List Byte)

/-- Outcomes of `WatchDirectory` other than success: the runtime panic raised
by the unguarded `dir[:2]` slice on a string shorter than two bytes, and the
"directory does not exist" error. -/
inductive WatchErr where
  | slicePanic
  | dirNotExist
deriving DecidableEq

/-- One step of `WatchDirectory`'s scan loop: start tailing the matched file,
accumulating the events its handlers saw. -/
def tailingStep (sid : List Byte → Option String)
    (files : List (String × List Byte)) (acc : SessionWatcher × List WEvent)
    (p : String) : SessionWatcher × List WEvent :=
  let s := startTailing sid files acc.1 p
  (s.1, acc.2 ++ s.2)

/-- Embedding of `SessionWatcher.WatchDirectory`: expand a `~/`-prefixed path
(the `dir[:2]` slice panics on strings shorter than two bytes), check the
directory exists, register it with the notifier unless already watched, glob
for existing session files (`glob` stands for `filepath.Glob` on
`dir/pattern`) and start a tail for each match. -/
def watchDirectory (sid : List Byte → Option String)
    (glob : String → String → List String) (fs : Fs) (home : String)
    (w : SessionWatcher) (dir pattern : String) :
    Except WatchErr (SessionWatcher × List WEvent) :=
  if dir.length < 2 then .error .slicePanic
  else
    let dir := if dir.take 2 = "~/" then home ++ "/" ++ dir.drop 2 else dir
    if dir ∉ fs.dirs then .error .dirNotExist
    else
      let w1 :=
        if dir ∈ w.watchedPaths then w
        else
          { w with
            watchedPaths := w.watchedPaths ++ [dir]
            notifierAdds := w.notifierAdds ++ [dir] }
      .ok ((glob dir pattern).foldl (tailingStep sid fs.files) (w1, []))

/-! ## Capture Daemon (`CaptureDaemon`, src/unnamed/part_018) -/

/-- Embedding of the daemon `Metrics` counters the claims mention. -/
structure Metrics where
  eventsReceived : Nat
  eventsProcessed : Nat
  eventsDropped : Nat
  bytesWritten : Nat
deriving DecidableEq

/-- Daemon state relevant to event admission: the bounded event queue and the
metrics. -/
structure DaemonState where
  eventQueue : List WEvent
  metrics : Metrics
deriving DecidableEq

/-- Capacity of the event queue (`make(chan watcher.Event, 1000)`). -/
def queueCapacity : Nat := 1000

/-- Embedding of `CaptureDaemon.handleEvent`: count the event as received,
then try to enqueue; with no room in the queue the 100ms timeout branch of the
`select` fires, the event is dropped, `EventsDropped` is incremented and an
error is returned (`false` here). With room, the send succeeds (`true`). -/
def handleEvent (d : DaemonState) (e : WEvent) : DaemonState × Bool :=
  let m1 := { d.metrics with eventsReceived := d.metrics.eventsReceived + 1 }
  if d.eventQueue.length < queueCapacity then
    ({ eventQueue := d.eventQueue ++ [e], metrics := m1 }, true)
  else
    ({ eventQueue := d.eventQueue,
       metrics := { m1 with eventsDropped := m1.eventsDropped + 1 } }, false)

/-- A sequence of events offered to `handleEvent` with no worker consuming in
between (the saturation scenario of the claim). -/
def handleEvents (d : DaemonState) (es : List WEvent) : DaemonState :=
  es.foldl (fun acc e => (handleEvent acc e).1) d

/-! ## Association-list lemmas -/

theorem findVal_append_left {α : Type} (l₁ l₂ : List (String × α)) (k : String)
    (v : α) (h : findVal l₁ k = some v) : findVal (l₁ ++ l₂) k = some v := by
  induction l₁ with
  | nil => simp [findVal] at h
  | cons p ps ih =>
    by_cases hk : p.1 = k
    · simpa [findVal, hk] using by simpa [findVal, hk] using h
    · simp only [findVal, hk, if_neg, List.cons_append] at h ⊢
      exact ih h

theorem findVal_append_right {α : Type} (l₁ l₂ : List (String × α)) (k : String)
    (h : findVal l₁ k = none) : findVal (l₁ ++ l₂) k = findVal l₂ k := by
  induction l₁ with
  | nil => simp
  | cons p ps ih =>
    by_cases hk : p.1 = k
    · simp [findVal, hk] at h
    · simp only [findVal, hk, if_neg, List.cons_append] at h ⊢
      exact ih h

theorem findVal_eq_none_of_not_mem {α : Type} (l : List (String × α)) (k : String)
    (h : k ∉ keysOf l) : findVal l k = none := by
  induction l with
  | nil => rfl
  | cons p ps ih =>
    simp only [keysOf, List.map_cons, List.mem_cons] at h
    push_neg at h
    have h1 : p.1 ≠ k := fun hx => h.1 hx.symm
    simp only [findVal, h1, if_neg, if_false]
    exact ih (by simpa [keysOf] using h.2)

theorem updateEntry_cons {α : Type} (p : String × α) (ps : List (String × α))
    (k : String) (f : α → α) :
    updateEntry (p :: ps) k f =
      (if p.1 = k then (p.1, f p.2) else p) :: updateEntry ps k f := by
  simp [updateEntry]

theorem keysOf_updateEntry {α : Type} (l : List (String × α)) (k : String)
    (f : α → α) : keysOf (updateEntry l k f) = keysOf l := by
  induction l with
  | nil => rfl
  | cons p ps ih =>
    rw [updateEntry_cons]
    by_cases hk : p.1 = k <;> simp [keysOf, hk] at ih ⊢ <;> exact ih

theorem findVal_updateEntry_self {α : Type} (l : List (String × α)) (k : String)
    (f : α → α) : findVal (updateEntry l k f) k = (findVal l k).map f := by
  induction l with
  | nil => rfl
  | cons p ps ih =>
    rw [updateEntry_cons]
    by_cases hk : p.1 = k <;> simp [findVal, hk, ih]

theorem findVal_updateEntry_ne {α : Type} (l : List (String × α)) (k k' : String)
    (f : α → α) (h : k' ≠ k) : findVal (updateEntry l k f) k' = findVal l k' := by
  induction l with
  | nil => rfl
  | cons p ps ih =>
    rw [updateEntry_cons]
    have hkk' : k ≠ k' := fun hx => h hx.symm
    by_cases hk : p.1 = k
    · simp [findVal, hk, hkk', ih]
    · by_cases hk' : p.1 = k' <;> simp [findVal, hk, hk', h, hkk', ih]

theorem updateEntry_of_not_mem {α : Type} (l : List (String × α)) (k : String)
    (f : α → α) (h : k ∉ keysOf l) : updateEntry l k f = l := by
  induction l with
  | nil => rfl
  | cons p ps ih =>
    simp only [keysOf, List.map_cons, List.mem_cons] at h
    push_neg at h
    have h1 : p.1 ≠ k := fun hx => h.1 hx.symm
    rw [updateEntry_cons, if_neg h1, ih (by simpa [keysOf] using h.2)]

theorem updateEntry_append {α : Type} (l₁ l₂ : List (String × α)) (k : String)
    (f : α → α) :
    updateEntry (l₁ ++ l₂) k f = updateEntry l₁ k f ++ updateEntry l₂ k f := by
  simp [updateEntry]

theorem not_mem_keys_of_findVal_eq_none {α : Type} (l : List (String × α))
    (k : String) (h : findVal l k = none) : k ∉ keysOf l := by
  induction l with
  | nil => simp [keysOf]
  | cons p ps ih =>
    by_cases hk : p.1 = k
    · simp [findVal, hk] at h
    · simp only [findVal, hk, if_neg, if_false] at h
      simp only [keysOf, List.map_cons, List.mem_cons]
      push_neg
      exact ⟨fun hx => hk hx.symm, by simpa [keysOf] using ih h⟩

theorem findVal_append_single_ne {α : Type} (l : List (String × α))
    (k nm : String) (v : α) (h : k ≠ nm) :
    findVal (l ++ [(nm, v)]) k = findVal l k := by
  cases hf : findVal l k with
  | some w => exact findVal_append_left l [(nm, v)] k w hf
  | none =>
    rw [findVal_append_right l [(nm, v)] k hf]
    have hne : ¬nm = k := fun hx => h hx.symm
    simp [findVal, hne, hf]

/-! ## Claim C7 — trailing-newline normalization of `WriteRawLine` -/

/-- Counterexample to C7. The claim says a single newline is appended whenever
the input does not already end in one, *including the empty input*, so that
the appended bytes end with exactly one trailing newline. On the code,
`WriteRawLine` guards the append with `len(line) > 0`: the empty write
appends no bytes at all (the logger state is unchanged), and an input already
ending in two newlines is appended verbatim, ending in two newlines, not one. -/
theorem writeRawLine_newline_counterexample :
    writeRawLine (newAuditLogger "T0" 100 false) "T1" [] =
        newAuditLogger "T0" 100 false ∧
      (writeRawLine (newAuditLogger "T0" 100 false) "T1"
          [nlByte, nlByte]).currentBuf = [nlByte, nlByte] := by
  constructor
  · decide
  · decide

/-- C7 (amended): for every *nonempty* input, `WriteRawLine` appends the input
with a single newline appended when it does not already end in one, and
unchanged (no newline added) when it does; the empty input appends nothing.
The appended bytes go through the current shard's buffered writer, on top of
whatever the shard written into already buffered (nothing, after a rotation). -/
theorem writeRawLine_trailing_newline (a : AuditLogger) (ts : String)
    (line : List Byte) :
    addNewline line =
        (if line = [] then []
         else if line.getLast? = some nlByte then line else line ++ [nlByte]) ∧
      (writeRawLine a ts line).currentBuf =
        (if a.maxShardSize ≤ a.currentSize then [] else a.currentBuf) ++
          addNewline line := by
  constructor
  · by_cases h0 : line = []
    · simp [addNewline, h0]
    · by_cases hl : line.getLast? = some nlByte
      · simp [addNewline, h0, hl]
      · simp [addNewline, h0, hl, List.length_pos]
  · by_cases hfull : a.maxShardSize ≤ a.currentSize
    · simp [writeRawLine, rotateShard, flushShard, hfull]
    · simp [writeRawLine, hfull]

/-! ## Claim C1 — rotation happens before the write -/

theorem writeRawLine_full_eq (a : AuditLogger) (ts : String) (line : List Byte)
    (hfull : a.maxShardSize ≤ a.currentSize)
    (hfresh : findVal a.files (shardFileName ts a.compressShards) = none)
    (hcn : a.currentName ≠ shardFileName ts a.compressShards) :
    writeRawLine a ts line =
      { files := updateEntry a.files a.currentName (· ++ a.currentBuf) ++
          [(shardFileName ts a.compressShards, [])]
        currentName := shardFileName ts a.compressShards
        currentBuf := addNewline line
        currentSize := (addNewline line).length
        maxShardSize := a.maxShardSize
        compressShards := a.compressShards } := by
  have hfF : findVal (updateEntry a.files a.currentName (· ++ a.currentBuf))
      (shardFileName ts a.compressShards) = none := by
    rw [findVal_updateEntry_ne _ _ _ _ (fun hx => hcn hx.symm)]
    exact hfresh
  simp [writeRawLine, rotateShard, flushShard, hfull, hfF]

/-- C1 (confirmed): a write arriving while the current shard's size already
meets or exceeds the configured maximum rotates first, so it produces exactly
one additional shard file, the triggering line lands entirely in the new
shard (its flushed content is exactly the newline-normalized line), every
shard other than the new one and the previously current one is untouched, and
the previously current shard only receives its own already-buffered bytes on
close — never any part of the triggering line. The freshness hypothesis
states that the rotation timestamp generates an unused file name (`os.Create`
would otherwise truncate the existing shard of the same name), and the
`isSome` hypothesis that the currently open shard is a file of the directory,
which holds for every logger `NewAuditLogger` builds. -/
theorem writeRawLine_rotation_boundary (a : AuditLogger) (ts : String)
    (line : List Byte)
    (hfull : a.maxShardSize ≤ a.currentSize)
    (hfresh : findVal a.files (shardFileName ts a.compressShards) = none)
    (hcur : (findVal a.files a.currentName).isSome) :
    (writeRawLine a ts line).files.length = a.files.length + 1 ∧
      (writeRawLine a ts line).currentName = shardFileName ts a.compressShards ∧
      findVal (closeLogger (writeRawLine a ts line)).files
          (shardFileName ts a.compressShards) = some (addNewline line) ∧
      (∀ k, k ≠ shardFileName ts a.compressShards → k ≠ a.currentName →
        findVal (writeRawLine a ts line).files k = findVal a.files k) ∧
      findVal (writeRawLine a ts line).files a.currentName =
        (findVal a.files a.currentName).map (· ++ a.currentBuf) := by
  have hcn : a.currentName ≠ shardFileName ts a.compressShards := by
    intro hx
    rw [hx, hfresh] at hcur
    simp at hcur
  have hw := writeRawLine_full_eq a ts line hfull hfresh hcn
  set nm := shardFileName ts a.compressShards with hnm
  set F := updateEntry a.files a.currentName (· ++ a.currentBuf) with hF
  have hkeys : nm ∉ keysOf F := by
    rw [hF, keysOf_updateEntry]
    exact not_mem_keys_of_findVal_eq_none _ _ hfresh
  have hFnone : findVal F nm = none := findVal_eq_none_of_not_mem _ _ hkeys
  refine ⟨?_, ?_, ?_, ?_, ?_⟩
  · rw [hw]
    simp [hF, updateEntry]
  · rw [hw]
  · rw [hw]
    show findVal (updateEntry (F ++ [(nm, [])]) nm (· ++ addNewline line)) nm = _
    rw [updateEntry_append, updateEntry_of_not_mem F nm _ hkeys]
    have : updateEntry [(nm, ([] : List Byte))] nm (· ++ addNewline line) =
        [(nm, addNewline line)] := by simp [updateEntry]
    rw [this, findVal_append_right F _ nm hFnone]
    simp [findVal]
  · intro k hknm hkcn
    rw [hw]
    show findVal (F ++ [(nm, [])]) k = _
    rw [findVal_append_single_ne F k nm [] hknm, hF,
      findVal_updateEntry_ne _ _ _ _ hkcn]
  · rw [hw]
    show findVal (F ++ [(nm, [])]) a.currentName = _
    rw [findVal_append_single_ne F a.currentName nm [] hcn, hF,
      findVal_updateEntry_self]

/-- Witness for C1 at a concrete full logger: max shard size 0 forces the
very first write to rotate from `shard_T0.jsonl` to `shard_T1.jsonl`. -/
theorem writeRawLine_rotation_boundary_witness :
    (writeRawLine (newAuditLogger "T0" 0 false) "T1" [97]).files.length =
        (newAuditLogger "T0" 0 false).files.length + 1 ∧
      (writeRawLine (newAuditLogger "T0" 0 false) "T1" [97]).currentName =
        shardFileName "T1" (newAuditLogger "T0" 0 false).compressShards ∧
      findVal (closeLogger (writeRawLine (newAuditLogger "T0" 0 false) "T1"
            [97])).files (shardFileName "T1"
          (newAuditLogger "T0" 0 false).compressShards) =
        some (addNewline [97]) := by
  have h := writeRawLine_rotation_boundary (newAuditLogger "T0" 0 false) "T1"
    [97] (by decide) (by decide) (by decide)
  exact ⟨h.1, h.2.1, h.2.2.1⟩

/-! ## Line-splitting and string-order lemmas -/

theorem charsLt_irrefl (l : List Char) : charsLt l l = false := by
  induction l with
  | nil => rfl
  | cons a as ih => simp [charsLt, ih]

theorem strLt_irrefl (s : String) : strLt s s = false := by
  simpa [strLt] using charsLt_irrefl s.data

theorem ne_of_strLt {x y : String} (h : strLt x y = true) : x ≠ y := by
  intro he
  rw [he, strLt_irrefl] at h
  cases h

theorem splitLines_line : ∀ l : List Byte, IsLine l →
    ∀ rest, splitLines (l ++ rest) = l :: splitLines rest := by
  intro l
  induction l with
  | nil => intro h; exact absurd rfl h.1
  | cons b l' ih =>
    intro h rest
    cases l' with
    | nil =>
      have hb : b = nlByte := by simpa using h.2.1
      subst hb
      simp [splitLines]
    | cons c l'' =>
      have hd : (b :: c :: l'').dropLast = b :: (c :: l'').dropLast := rfl
      have hnb : ¬b = nlByte := by
        intro hx
        exact h.2.2 (by rw [hd, hx]; exact List.mem_cons_self _ _)
      have hl'' : IsLine (c :: l'') := by
        refine ⟨by simp, ?_, ?_⟩
        · have h21 := h.2.1
          rwa [List.getLast?_cons_cons] at h21
        · intro hm
          exact h.2.2 (by rw [hd]; exact List.mem_cons_of_mem _ hm)
      have hrec := ih hl'' rest
      show splitLines (b :: ((c :: l'') ++ rest)) = _
      rw [splitLines, if_neg hnb, hrec]

theorem splitLines_single (l : List Byte) (h : IsLine l) : splitLines l = [l] := by
  have hx := splitLines_line l h []
  simpa using hx

theorem splitLines_flat : ∀ ls : List (List Byte), (∀ l ∈ ls, IsLine l) →
    splitLines ls.flatten = ls := by
  intro ls
  induction ls with
  | nil => intro _; rfl
  | cons l ls ih =>
    intro h
    rw [List.flatten_cons, splitLines_line l (h l (List.mem_cons_self _ _)),
      ih (fun x hx => h x (List.mem_cons_of_mem _ hx))]

theorem updateEntry_updateEntry {α : Type} (l : List (String × α)) (k : String)
    (f g : α → α) :
    updateEntry (updateEntry l k g) k f = updateEntry l k (fun x => f (g x)) := by
  induction l with
  | nil => rfl
  | cons p ps ih =>
    rw [updateEntry_cons, updateEntry_cons, updateEntry_cons]
    by_cases hk : p.1 = k <;> simp [hk, ih]

theorem keysOf_append {α : Type} (l₁ l₂ : List (String × α)) :
    keysOf (l₁ ++ l₂) = keysOf l₁ ++ keysOf l₂ := by
  simp [keysOf]

theorem updateEntry_concat_self {α : Type} (init : List (String × α))
    (k : String) (c : α) (f : α → α) (h : k ∉ keysOf init) :
    updateEntry (init ++ [(k, c)]) k f = init ++ [(k, f c)] := by
  rw [updateEntry_append, updateEntry_of_not_mem init k f h]
  simp [updateEntry]

theorem writeRawLine_compressShards (a : AuditLogger) (ts : String)
    (line : List Byte) :
    (writeRawLine a ts line).compressShards = a.compressShards := by
  by_cases h : a.maxShardSize ≤ a.currentSize <;>
    simp [writeRawLine, rotateShard, flushShard, h]

theorem writeRawLine_maxShardSize (a : AuditLogger) (ts : String)
    (line : List Byte) :
    (writeRawLine a ts line).maxShardSize = a.maxShardSize := by
  by_cases h : a.maxShardSize ≤ a.currentSize <;>
    simp [writeRawLine, rotateShard, flushShard, h]

theorem keysOf_writeRawLine (a : AuditLogger) (ts : String) (line : List Byte) :
    keysOf (writeRawLine a ts line).files = keysOf a.files ∨
      keysOf (writeRawLine a ts line).files =
        keysOf a.files ++ [shardFileName ts a.compressShards] := by
  by_cases h : a.maxShardSize ≤ a.currentSize
  · by_cases hf : (findVal (updateEntry a.files a.currentName (· ++ a.currentBuf))
        (shardFileName ts a.compressShards)).isSome
    · left
      simp [writeRawLine, rotateShard, flushShard, h, hf, keysOf_updateEntry]
    · right
      simp only [writeRawLine, rotateShard, flushShard, h, if_true, hf,
        if_false, Bool.false_eq_true, ite_false]
      rw [keysOf_append, keysOf_updateEntry]
      rfl
  · left
    simp [writeRawLine, h]

theorem files_concat_of_inv (a : AuditLogger) (written : List (List Byte))
    (hI : WriterInv a written) :
    ∃ init c, a.files = init ++ [(a.currentName, c)] ∧
      a.currentName ∉ keysOf init := by
  obtain ⟨hne, hlast, hsorted, -, -⟩ := hI
  obtain ⟨p, init, hfiles⟩ : ∃ p init, a.files = init ++ [p] := by
    rcases List.eq_nil_or_concat a.files with h | ⟨init, p, h⟩
    · exact absurd h hne
    · exact ⟨p, init, by simpa [List.concat_eq_append] using h⟩
  have hp1 : p.1 = a.currentName := by
    rw [hfiles, keysOf_append] at hlast
    simp [keysOf] at hlast
    exact hlast
  have hnot : a.currentName ∉ keysOf init := by
    rw [hfiles, keysOf_append] at hsorted
    have hrel := (List.pairwise_append.mp hsorted).2.2
    intro hmem
    have := hrel a.currentName hmem p.1 (by simp [keysOf])
    rw [hp1] at this
    exact ne_of_strLt this rfl
  refine ⟨init, p.2, ?_, hnot⟩
  rw [hfiles]
  congr 1
  simp [← hp1]

theorem closedFiles_eq (a : AuditLogger) :
    closedFiles a = updateEntry a.files a.currentName (· ++ a.currentBuf) := rfl

/-- One `WriteRawLine` preserves the writer invariant, appending the
newline-normalized line to the written sequence, provided the line is a
complete line and the rotation timestamp (used only if rotation fires)
generates a file name above every existing one. -/
theorem writerInv_step (a : AuditLogger) (written : List (List Byte))
    (ts : String) (line : List Byte)
    (hI : WriterInv a written)
    (hline : IsLine (addNewline line))
    (hfresh : ∀ k ∈ keysOf a.files,
      strLt k (shardFileName ts a.compressShards) = true) :
    WriterInv (writeRawLine a ts line) (written ++ [addNewline line]) := by
  obtain ⟨init, c, hfiles, hninit⟩ := files_concat_of_inv a written hI
  obtain ⟨hne, hlast, hsorted, hLO, hjoin⟩ := hI
  have hclosed : closedFiles a = init ++ [(a.currentName, c ++ a.currentBuf)] := by
    rw [closedFiles_eq]
    conv_lhs => rw [hfiles]
    exact updateEntry_concat_self init a.currentName c _ hninit
  have hlast_mem : (a.currentName, c ++ a.currentBuf) ∈ closedFiles a := by
    rw [hclosed]; simp
  obtain ⟨ls, hls, hc⟩ := hLO _ hlast_mem
  have hc2 : c ++ a.currentBuf = ls.flatten := hc
  have hsplit_old : splitLines (c ++ a.currentBuf) = ls := by
    rw [hc2]; exact splitLines_flat ls hls
  have hlines' : ∀ x ∈ ls ++ [addNewline line], IsLine x := by
    intro x hx
    rcases List.mem_append.mp hx with hx | hx
    · exact hls x hx
    · have hxe : x = addNewline line := by simpa using hx
      rw [hxe]; exact hline
  have hsplit_new :
      splitLines ((c ++ a.currentBuf) ++ addNewline line) =
        ls ++ [addNewline line] := by
    rw [hc2, show ls.flatten ++ addNewline line = (ls ++ [addNewline line]).flatten
      by simp]
    exact splitLines_flat _ hlines'
  have hjoin_old :
      ((init.map (fun p => splitLines p.2)).flatten ++ ls) = written := by
    rw [hclosed] at hjoin
    simpa [hsplit_old] using hjoin
  by_cases hfull : a.maxShardSize ≤ a.currentSize
  · -- rotation case: the new shard takes the line
    have hcn_mem : a.currentName ∈ keysOf a.files := by
      rw [hfiles, keysOf_append]; simp [keysOf]
    have hnm_fresh : shardFileName ts a.compressShards ∉ keysOf a.files := by
      intro hmem
      exact ne_of_strLt (hfresh _ hmem) rfl
    have hcnnm : a.currentName ≠ shardFileName ts a.compressShards :=
      ne_of_strLt (hfresh _ hcn_mem)
    have hw := writeRawLine_full_eq a ts line hfull
      (findVal_eq_none_of_not_mem _ _ hnm_fresh) hcnnm
    have hwf : (writeRawLine a ts line).files =
        updateEntry a.files a.currentName (· ++ a.currentBuf) ++
          [(shardFileName ts a.compressShards, [])] := by rw [hw]
    have hwc : (writeRawLine a ts line).currentName =
        shardFileName ts a.compressShards := by rw [hw]
    have hwb : (writeRawLine a ts line).currentBuf = addNewline line := by rw [hw]
    have hkeysF : keysOf (updateEntry a.files a.currentName (· ++ a.currentBuf)) =
        keysOf a.files := keysOf_updateEntry _ _ _
    have hnmF : shardFileName ts a.compressShards ∉
        keysOf (updateEntry a.files a.currentName (· ++ a.currentBuf)) := by
      rw [hkeysF]; exact hnm_fresh
    have hclosed' : closedFiles (writeRawLine a ts line) =
        updateEntry a.files a.currentName (· ++ a.currentBuf) ++
          [(shardFileName ts a.compressShards, addNewline line)] := by
      rw [closedFiles_eq, hwf, hwc, hwb]
      exact updateEntry_concat_self _ _ _ _ hnmF
    refine ⟨by rw [hwf]; simp, ?_, ?_, ?_, ?_⟩
    · rw [hwf, hwc, keysOf_append, hkeysF]
      simp [keysOf]
    · rw [hwf, keysOf_append, hkeysF]
      refine List.pairwise_append.mpr ⟨hsorted, by simp [keysOf], ?_⟩
      intro x hx y hy
      rw [show y = shardFileName ts a.compressShards by simpa [keysOf] using hy]
      exact hfresh x hx
    · rw [hclosed']
      intro p hp
      rcases List.mem_append.mp hp with hp | hp
      · exact hLO p (by rw [closedFiles_eq]; exact hp)
      · have hpe : p = (shardFileName ts a.compressShards, addNewline line) := by
          simpa using hp
        rw [hpe]
        exact ⟨[addNewline line], by simpa using hline, by simp⟩
    · rw [hclosed', List.map_append, List.flatten_append]
      have hFc : (updateEntry a.files a.currentName (· ++ a.currentBuf)).map
          (fun p => splitLines p.2) =
            (closedFiles a).map (fun p => splitLines p.2) := by
        rw [closedFiles_eq]
      rw [hFc, hjoin]
      simp [splitLines_single _ hline]
  · -- no rotation: the line is appended to the current shard
    have hwf : (writeRawLine a ts line).files = a.files := by
      simp [writeRawLine, hfull]
    have hwc : (writeRawLine a ts line).currentName = a.currentName := by
      simp [writeRawLine, hfull]
    have hwb : (writeRawLine a ts line).currentBuf =
        a.currentBuf ++ addNewline line := by
      simp [writeRawLine, hfull]
    have hclosed' : closedFiles (writeRawLine a ts line) =
        init ++ [(a.currentName, (c ++ a.currentBuf) ++ addNewline line)] := by
      rw [closedFiles_eq, hwf, hwc, hwb]
      conv_lhs => rw [hfiles]
      rw [updateEntry_concat_self init a.currentName c _ hninit]
      simp [List.append_assoc]
    refine ⟨by rw [hwf]; exact hne, by rw [hwf, hwc]; exact hlast,
      by rw [hwf]; exact hsorted, ?_, ?_⟩
    · rw [hclosed']
      intro p hp
      rcases List.mem_append.mp hp with hp | hp
      · exact hLO p (by rw [hclosed]; exact List.mem_append_left _ hp)
      · have hpe : p = (a.currentName, (c ++ a.currentBuf) ++ addNewline line) := by
          simpa using hp
        rw [hpe]
        refine ⟨ls ++ [addNewline line], hlines', ?_⟩
        show (c ++ a.currentBuf) ++ addNewline line = _
        rw [hc2]; simp
    · rw [hclosed', List.map_append, List.flatten_append]
      simp only [List.map_cons, List.map_nil, List.flatten_cons, List.flatten_nil,
        List.append_nil]
      rw [hsplit_new, ← hjoin_old]
      simp [List.append_assoc]

theorem strLe_of_strLt {x y : String} (h : strLt x y = true) : strLe x y = true := by
  simp [strLe, h]

/-- The writer invariant carries through a whole write history whose rotation
timestamps generate strictly increasing shard file names above every file
already present. -/
theorem writerInv_writeAll (c : Bool) :
    ∀ (ws : List (String × List Byte)) (a : AuditLogger)
      (written : List (List Byte)),
    a.compressShards = c →
    WriterInv a written →
    (∀ p ∈ ws, IsLine (addNewline p.2)) →
    (∀ k ∈ keysOf a.files, ∀ p ∈ ws, strLt k (shardFileName p.1 c) = true) →
    List.Pairwise
      (fun p q => strLt (shardFileName p.1 c) (shardFileName q.1 c) = true) ws →
    WriterInv (writeAll a ws) (written ++ ws.map (fun p => addNewline p.2)) := by
  intro ws
  induction ws with
  | nil =>
    intro a written _ hI _ _ _
    simpa [writeAll] using hI
  | cons p ps ih =>
    intro a written hcomp hI hls hdom hpair
    have hstep := writerInv_step a written p.1 p.2 hI
      (hls p (List.mem_cons_self _ _))
      (fun k hk => by
        rw [hcomp]
        exact hdom k hk p (List.mem_cons_self _ _))
    have hdom' : ∀ k ∈ keysOf (writeRawLine a p.1 p.2).files, ∀ q ∈ ps,
        strLt k (shardFileName q.1 c) = true := by
      intro k hk q hq
      rcases keysOf_writeRawLine a p.1 p.2 with he | he
      · rw [he] at hk
        exact hdom k hk q (List.mem_cons_of_mem _ hq)
      · rw [he] at hk
        rcases List.mem_append.mp hk with hk | hk
        · exact hdom k hk q (List.mem_cons_of_mem _ hq)
        · have hke : k = shardFileName p.1 a.compressShards := by simpa using hk
          rw [hke, hcomp]
          exact (List.pairwise_cons.mp hpair).1 q hq
    have happly := ih (writeRawLine a p.1 p.2) (written ++ [addNewline p.2])
      (by rw [writeRawLine_compressShards]; exact hcomp)
      hstep
      (fun q hq => hls q (List.mem_cons_of_mem _ hq))
      hdom'
      (List.pairwise_cons.mp hpair).2
    have hwa : writeAll a (p :: ps) = writeAll (writeRawLine a p.1 p.2) ps := rfl
    rw [hwa]
    simpa [List.append_assoc] using happly

theorem writerInv_newAuditLogger (ts0 : String) (maxSize : Nat) (c : Bool) :
    WriterInv (newAuditLogger ts0 maxSize c) [] := by
  have hfiles : (newAuditLogger ts0 maxSize c).files =
      [(shardFileName ts0 c, [])] := by
    simp [newAuditLogger, rotateShard, flushShard, updateEntry, findVal]
  have hcn : (newAuditLogger ts0 maxSize c).currentName = shardFileName ts0 c := by
    simp [newAuditLogger, rotateShard, flushShard, updateEntry, findVal]
  have hbuf : (newAuditLogger ts0 maxSize c).currentBuf = [] := by
    simp [newAuditLogger, rotateShard, flushShard, updateEntry, findVal]
  have hclosed : closedFiles (newAuditLogger ts0 maxSize c) =
      [(shardFileName ts0 c, [])] := by
    rw [closedFiles_eq, hfiles, hcn, hbuf]
    simp [updateEntry]
  refine ⟨by rw [hfiles]; simp, by rw [hfiles, hcn]; simp [keysOf],
    by rw [hfiles]; simp [keysOf], ?_, ?_⟩
  · rw [hclosed]
    intro q hq
    have hqe : q = (shardFileName ts0 c, ([] : List Byte)) := by simpa using hq
    rw [hqe]
    exact ⟨[], by simp, by simp⟩
  · rw [hclosed]
    simp [splitLines]

/-- C2 (confirmed): for a write history through the Segmented Log Writer whose
payloads are single lines (newline-free, or already newline-terminated;
`addNewline p.2` is then the line as stored) and whose rotation timestamps
generate strictly increasing shard file names above the initial shard, a
fresh `ShardIterator` over the flushed directory yields exactly the written
lines in write order, reaching `io.EOF` only after the last shard; and since
the iterator is a pure function of the directory contents, a second fresh
iterator reproduces the same sequence. The freshness hypotheses reflect that
the code derives rotation file names from a second-resolution wall clock and
relies on their lexical order being the creation order. -/
theorem iterator_replays_write_order (ts0 : String) (maxSize : Nat) (c : Bool)
    (ws : List (String × List Byte))
    (hlines : ∀ p ∈ ws, IsLine (addNewline p.2))
    (hfirst : ∀ p ∈ ws, strLt (shardFileName ts0 c) (shardFileName p.1 c) = true)
    (hpair : List.Pairwise
      (fun p q => strLt (shardFileName p.1 c) (shardFileName q.1 c) = true) ws) :
    iterLines (closedFiles (writeAll (newAuditLogger ts0 maxSize c) ws)) =
        ws.map (fun p => addNewline p.2) ∧
      iterLines (closedFiles (writeAll (newAuditLogger ts0 maxSize c) ws)) =
        iterLines (closedFiles (writeAll (newAuditLogger ts0 maxSize c) ws)) := by
  have hdom0 : ∀ k ∈ keysOf (newAuditLogger ts0 maxSize c).files, ∀ p ∈ ws,
      strLt k (shardFileName p.1 c) = true := by
    intro k hk p hp
    have hfiles : (newAuditLogger ts0 maxSize c).files =
        [(shardFileName ts0 c, [])] := by
      simp [newAuditLogger, rotateShard, flushShard, updateEntry, findVal]
    rw [hfiles] at hk
    have hke : k = shardFileName ts0 c := by simpa [keysOf] using hk
    rw [hke]
    exact hfirst p hp
  have hcomp0 : (newAuditLogger ts0 maxSize c).compressShards = c := by
    simp [newAuditLogger, rotateShard, flushShard]
  have hI := writerInv_writeAll c ws (newAuditLogger ts0 maxSize c) [] hcomp0
    (writerInv_newAuditLogger ts0 maxSize c) hlines hdom0 hpair
  obtain ⟨-, -, hsorted, -, hjoin⟩ := hI
  constructor
  · have hkeys_closed :
        keysOf (closedFiles (writeAll (newAuditLogger ts0 maxSize c) ws)) =
          keysOf (writeAll (newAuditLogger ts0 maxSize c) ws).files := by
      rw [closedFiles_eq, keysOf_updateEntry]
    have hsorted_pairs :
        List.Pairwise (fun p q : String × List Byte => strLe p.1 q.1 = true)
          (closedFiles (writeAll (newAuditLogger ts0 maxSize c) ws)) := by
      have hkp := hsorted
      rw [← hkeys_closed] at hkp
      have := (List.pairwise_map.mp hkp)
      exact this.imp (fun h => strLe_of_strLt h)
    have hsort_eq :
        sortShards (closedFiles (writeAll (newAuditLogger ts0 maxSize c) ws)) =
          closedFiles (writeAll (newAuditLogger ts0 maxSize c) ws) :=
      List.Sorted.insertionSort_eq hsorted_pairs
    rw [iterLines, hsort_eq]
    simpa using hjoin
  · rfl

/-- Witness for C2: two single-byte lines written with a 1-byte shard maximum
split across two shards; a fresh iterator returns both lines in order. -/
theorem iterator_replays_write_order_witness :
    iterLines (closedFiles (writeAll (newAuditLogger "A" 1 false)
        [("B", [97]), ("C", [98])])) =
      List.map (fun p => addNewline p.2) [("B", [97]), ("C", [98])] :=
  (iterator_replays_write_order "A" 1 false [("B", [97]), ("C", [98])]
    (by decide) (by decide) (by decide)).1

/-! ## Claim C3 — follow mode across rotation -/

/-- Counterexample to C3. With unread lines remaining in `shard_A`, the writer
rotates twice between two ticker iterations, so that `shard_B` and `shard_C`
both exist at the next end-of-file check. `tailShard` compares the tailed
shard only against `findLatestShard()` and switches straight to `shard_C`:
the run delivers `a1 a2 c1`, the post-run state is a fixpoint (a further tick
on the unchanged directory emits nothing), and `b1` — a line of a shard
created after `shard_A` — is never delivered. -/
theorem tail_skips_intermediate_shard_counterexample :
    tailRun [[("shard_A", ["a1", "a2"])],
        [("shard_A", ["a1", "a2"]), ("shard_B", ["b1"]), ("shard_C", ["c1"])],
        [("shard_A", ["a1", "a2"]), ("shard_B", ["b1"]), ("shard_C", ["c1"])],
        [("shard_A", ["a1", "a2"]), ("shard_B", ["b1"]), ("shard_C", ["c1"])]]
        ⟨"shard_A", 0⟩ = (["a1", "a2", "c1"], ⟨"shard_C", 1⟩) ∧
      tailTick [("shard_A", ["a1", "a2"]), ("shard_B", ["b1"]),
          ("shard_C", ["c1"])] ⟨"shard_C", 1⟩ = ([], ⟨"shard_C", 1⟩) ∧
      "b1" ∉ ["a1", "a2", "c1"] := by decide

theorem tailRun_replicate_fix (dir : TDir) (l : String) (cl : List String)
    (hl : findVal dir l = some cl) (hlatest : findLatestShard dir = some l) :
    ∀ k, tailRun (List.replicate k dir) ⟨l, cl.length⟩ = ([], ⟨l, cl.length⟩) := by
  intro k
  induction k with
  | zero => rfl
  | succ n ih =>
    have htick : tailTick dir ⟨l, cl.length⟩ = ([], ⟨l, cl.length⟩) := by
      simp [tailTick, shardLines, hl, hlatest]
    simp [List.replicate_succ, tailRun, htick, ih]

/-- C3 (amended): while unread lines remain in the tailed shard `A`, once
newer shards exist the tailer first drains all of `A`'s remaining lines, then
switches directly to the lexically latest shard and delivers all of *its*
lines from the beginning — so `A`'s remaining lines always precede any newer
shard's lines and no line of the latest shard is skipped. The original
claim's "no line of any shard created after A is skipped" holds only when
exactly one shard was created after `A` (then the latest *is* that shard);
with two or more rotations between ticks, the intermediate shards are skipped
entirely (see the counterexample). -/
theorem tail_drains_old_shard_then_latest (dir : TDir) (A l : String)
    (ca cl : List String) (pos k : Nat)
    (hA : findVal dir A = some ca)
    (hl : findVal dir l = some cl)
    (hlatest : findLatestShard dir = some l)
    (hne : l ≠ A) :
    tailRun (List.replicate (k + 2) dir) ⟨A, pos⟩ =
      (ca.drop pos ++ cl, ⟨l, cl.length⟩) := by
  have t1 : tailTick dir ⟨A, pos⟩ = (ca.drop pos, ⟨l, 0⟩) := by
    simp [tailTick, shardLines, hA, hlatest, hne]
  have t2 : tailTick dir ⟨l, 0⟩ = (cl, ⟨l, cl.length⟩) := by
    simp [tailTick, shardLines, hl, hlatest]
  have t3 := tailRun_replicate_fix dir l cl hl hlatest k
  simp [List.replicate_succ, tailRun, t1, t2, t3]

/-- Witness for C3's amended theorem: one rotation from `shard_A` to
`shard_B` with one line of `A` still unread; the remaining `a2` is delivered
before `b1 b2`, and nothing of `shard_B` is skipped. -/
theorem tail_drains_old_shard_then_latest_witness :
    tailRun (List.replicate 2 [("shard_A", ["a1", "a2"]), ("shard_B", ["b1", "b2"])])
        ⟨"shard_A", 1⟩ =
      (List.drop 1 ["a1", "a2"] ++ ["b1", "b2"], ⟨"shard_B", ["b1", "b2"].length⟩) :=
  tail_drains_old_shard_then_latest
    [("shard_A", ["a1", "a2"]), ("shard_B", ["b1", "b2"])] "shard_A" "shard_B"
    ["a1", "a2"] ["b1", "b2"] 1 0 (by decide) (by decide) (by decide) (by decide)

/-! ## Claim C4 — bounded backpressure: drop, don't block -/

theorem handleEvents_dropped :
    ∀ (es : List WEvent) (d : DaemonState),
    d.eventQueue.length ≤ queueCapacity →
    (handleEvents d es).metrics.eventsDropped =
      d.metrics.eventsDropped + (d.eventQueue.length + es.length - queueCapacity) := by
  intro es
  induction es with
  | nil =>
    intro d hd
    simp [handleEvents, Nat.sub_eq_zero_of_le hd]
  | cons e es ih =>
    intro d hd
    by_cases hq : d.eventQueue.length < queueCapacity
    · have hrw : handleEvents d (e :: es) =
          handleEvents ⟨d.eventQueue ++ [e],
            { d.metrics with
              eventsReceived := d.metrics.eventsReceived + 1 }⟩ es := by
        show handleEvents (handleEvent d e).1 es = _
        simp [handleEvent, hq]
      rw [hrw, ih _ (by simp; omega)]
      simp only [List.length_append, List.length_cons, List.length_nil]
      omega
    · have hrw : handleEvents d (e :: es) =
          handleEvents ⟨d.eventQueue,
            { d.metrics with
              eventsReceived := d.metrics.eventsReceived + 1
              eventsDropped := d.metrics.eventsDropped + 1 }⟩ es := by
        show handleEvents (handleEvent d e).1 es = _
        simp [handleEvent, hq]
      rw [hrw, ih _ (by simpa using hd)]
      simp only [List.length_cons]
      omega

/-- C4 (confirmed): an event offered while the queue is full takes the
timeout branch of the `select` — `handleEvent` returns (with an error) after
the bounded 100ms wait instead of blocking, the event is not enqueued, and
`EventsDropped` grows by exactly one; an accepted event leaves the counter
unchanged. Consequently, over any burst of events with no worker draining,
the counter grows by exactly the number of rejected events (the overflow
beyond the queue's remaining room). The 100ms constant itself is wall-clock
behavior outside the embedding; what is proved is the decision and counting
logic of both `select` branches. -/
theorem handleEvent_backpressure (d : DaemonState) (e : WEvent)
    (es : List WEvent) (hcap : d.eventQueue.length ≤ queueCapacity) :
    (queueCapacity ≤ d.eventQueue.length →
        (handleEvent d e).2 = false ∧
        (handleEvent d e).1.metrics.eventsDropped =
          d.metrics.eventsDropped + 1 ∧
        (handleEvent d e).1.eventQueue = d.eventQueue) ∧
      (d.eventQueue.length < queueCapacity →
        (handleEvent d e).2 = true ∧
        (handleEvent d e).1.metrics.eventsDropped = d.metrics.eventsDropped ∧
        (handleEvent d e).1.eventQueue = d.eventQueue ++ [e]) ∧
      (handleEvents d es).metrics.eventsDropped =
        d.metrics.eventsDropped +
          (d.eventQueue.length + es.length - queueCapacity) := by
  refine ⟨?_, ?_, handleEvents_dropped es d hcap⟩
  · intro hfull
    have hq : ¬d.eventQueue.length < queueCapacity := by omega
    refine ⟨by simp [handleEvent, hq], by simp [handleEvent, hq],
      by simp [handleEvent, hq]⟩
  · intro hq
    refine ⟨by simp [handleEvent, hq], by simp [handleEvent, hq],
      by simp [handleEvent, hq]⟩

set_option maxRecDepth 8000 in
/-- Witness for C4 at a saturated queue of exactly 1000 events: the next
event is rejected with the counter going from 0 to 1, and offering two events
drops both. -/
theorem handleEvent_backpressure_witness :
    (handleEvent ⟨List.replicate 1000 ⟨"m", "t", "", "p", []⟩, ⟨0, 0, 0, 0⟩⟩
          ⟨"m", "t", "", "p", []⟩).2 = false ∧
      (handleEvent ⟨List.replicate 1000 ⟨"m", "t", "", "p", []⟩, ⟨0, 0, 0, 0⟩⟩
            ⟨"m", "t", "", "p", []⟩).1.metrics.eventsDropped =
        (⟨0, 0, 0, 0⟩ : Metrics).eventsDropped + 1 ∧
      (handleEvents ⟨List.replicate 1000 ⟨"m", "t", "", "p", []⟩, ⟨0, 0, 0, 0⟩⟩
            [⟨"m", "t", "", "p", []⟩, ⟨"m", "t", "", "p", []⟩]).metrics.eventsDropped =
        (⟨0, 0, 0, 0⟩ : Metrics).eventsDropped +
          ((List.replicate 1000 (⟨"m", "t", "", "p", []⟩ : WEvent)).length + 2 -
            queueCapacity) := by
  have h := handleEvent_backpressure
    ⟨List.replicate 1000 ⟨"m", "t", "", "p", []⟩, ⟨0, 0, 0, 0⟩⟩
    ⟨"m", "t", "", "p", []⟩
    [⟨"m", "t", "", "p", []⟩, ⟨"m", "t", "", "p", []⟩]
    (by rw [List.length_replicate]; exact Nat.le_refl 1000)
  have hfull := h.1 (by rw [List.length_replicate]; exact Nat.le_refl 1000)
  exact ⟨hfull.1, hfull.2.1, h.2.2⟩

/-! ## Claim C5 — backlog first, then live tailing -/

theorem emitLines_spec (sid : List Byte → Option String) (path tool : String) :
    ∀ (ls : List (List Byte)) (off : Nat) (s : String),
    (emitLines sid path tool ls off s).1.map WEvent.rawLine = ls ∧
      ∀ ev ∈ (emitLines sid path tool ls off s).1, ev.type = "message" := by
  intro ls
  induction ls with
  | nil => intro off s; exact ⟨rfl, by intro ev h; cases h⟩
  | cons l ls ih =>
    intro off s
    obtain ⟨ih1, ih2⟩ := ih (off + l.length) (if s = "" then (sid l).getD s else s)
    refine ⟨?_, ?_⟩
    · show (_ :: (emitLines sid path tool ls _ _).1).map WEvent.rawLine = l :: ls
      rw [List.map_cons, ih1]
    · intro ev hev
      rcases List.mem_cons.mp hev with hev | hev
      · rw [hev]
      · exact ih2 ev hev

theorem readNewLines_spec (sid : List Byte → Option String) (content : List Byte)
    (t : SessionTail) :
    (readNewLines sid content t).1.map WEvent.rawLine =
        splitLines (content.drop t.lastOffset) ∧
      ∀ ev ∈ (readNewLines sid content t).1, ev.type = "message" := by
  exact emitLines_spec sid t.path t.tool _ t.lastOffset t.sessionID

theorem filter_message_append (evs : List WEvent) (x : WEvent)
    (hall : ∀ ev ∈ evs, ev.type = "message") (hx : ¬x.type = "message") :
    (evs ++ [x]).filter (fun ev => ev.type == "message") = evs := by
  induction evs with
  | nil =>
    have hb : (x.type == "message") = false := beq_eq_false_iff_ne.mpr hx
    simp [List.filter, hb]
  | cons e es ih =>
    rw [List.cons_append, List.filter_cons]
    simp only [hall e (List.mem_cons_self _ _), beq_self_eq_true, if_true,
      ite_true]
    rw [ih (fun v hv => hall v (List.mem_cons_of_mem _ hv))]

/-- C5 (confirmed): first watching a non-empty file whose content is the `N`
complete lines `ls` emits exactly those `N` lines as "message" events (one
per line, in order, before the trailing "session_start" and before anything
else is observed), sets the tail offset to the file's size, and a poll after
one more line `l` has been appended emits exactly that one further "message"
event. -/
theorem startTailing_backlog_then_live (sid : List Byte → Option String)
    (fs : List (String × List Byte)) (w : SessionWatcher) (path : String)
    (ls : List (List Byte)) (l : List Byte)
    (hfs : findVal fs path = some ls.flatten)
    (hnot : findVal w.activeSessions path = none)
    (hls : ∀ x ∈ ls, IsLine x)
    (hne : ls.flatten ≠ [])
    (hl : IsLine l) :
    ((startTailing sid fs w path).2.filter
        (fun ev => ev.type == "message")).map WEvent.rawLine = ls ∧
      (findVal (startTailing sid fs w path).1.activeSessions path).map
        SessionTail.lastOffset = some ls.flatten.length ∧
      ∀ t, findVal (startTailing sid fs w path).1.activeSessions path = some t →
        (readNewLines sid (ls.flatten ++ l) t).1.map WEvent.rawLine = [l] ∧
        ∀ ev ∈ (readNewLines sid (ls.flatten ++ l) t).1, ev.type = "message" := by
  have hlen0 : ¬ls.flatten.length = 0 := by
    intro hx
    exact hne (List.length_eq_zero.mp hx)
  have hsome : ¬(findVal w.activeSessions path).isSome = true := by
    rw [hnot]; simp
  obtain ⟨hmap, htypes⟩ := readNewLines_spec sid ls.flatten
    { path := path, lastOffset := 0, sessionID := "",
      tool := detectToolFromPath path }
  have hw : startTailing sid fs w path =
      ({ w with activeSessions := w.activeSessions ++
          [(path, { (readNewLines sid ls.flatten
              { path := path, lastOffset := 0, sessionID := "",
                tool := detectToolFromPath path }).2 with
            lastOffset := ls.flatten.length })] },
        (readNewLines sid ls.flatten
            { path := path, lastOffset := 0, sessionID := "",
              tool := detectToolFromPath path }).1 ++
          [{ type := "session_start",
             tool := (readNewLines sid ls.flatten
                { path := path, lastOffset := 0, sessionID := "",
                  tool := detectToolFromPath path }).2.tool,
             sessionID := "", path := path, rawLine := [] }]) := by
    simp only [startTailing, hsome, Bool.false_eq_true, if_false, hfs, hlen0,
      ite_false]
  rw [hw]
  refine ⟨?_, ?_, ?_⟩
  · rw [filter_message_append _ _ htypes (by simp), hmap, List.drop_zero,
      splitLines_flat ls hls]
  · rw [findVal_append_right _ _ _ hnot]
    simp [findVal]
  · intro t ht
    rw [findVal_append_right _ _ _ hnot] at ht
    simp [findVal] at ht
    obtain ⟨hm2, ht2⟩ := readNewLines_spec sid (ls.flatten ++ l) t
    have hot : t.lastOffset = ls.flatten.length := by
      rw [← ht]
      simp
    have hdrop : (ls.flatten ++ l).drop t.lastOffset = l := by
      rw [hot, List.drop_left]
    refine ⟨?_, ht2⟩
    rw [hm2, hdrop, splitLines_single l hl]

/-- Witness for C5: a file `dd/x.jsonl` holding two complete lines yields
exactly those two backlog "message" events and offset 4; appending `[99, 10]`
then yields exactly that one event. -/
theorem startTailing_backlog_then_live_witness :
    ((startTailing (fun _ => none) [("dd/x.jsonl", [97, 10, 98, 10])]
          ⟨[], [], []⟩ "dd/x.jsonl").2.filter
        (fun ev => ev.type == "message")).map WEvent.rawLine =
        [[97, 10], [98, 10]] ∧
      (readNewLines (fun _ => none) ([97, 10, 98, 10] ++ [99, 10])
          ⟨"dd/x.jsonl", 4, "", "unknown"⟩).1.map WEvent.rawLine = [[99, 10]] := by
  have h := startTailing_backlog_then_live (fun _ => none)
    [("dd/x.jsonl", [97, 10, 98, 10])] ⟨[], [], []⟩ "dd/x.jsonl"
    [[97, 10], [98, 10]] [99, 10] (by decide) (by decide) (by decide)
    (by decide) (by decide)
  refine ⟨h.1, ?_⟩
  have h3 := h.2.2 ⟨"dd/x.jsonl", 4, "", "unknown"⟩ (by decide)
  exact h3.1

/-! ## Claim C9 — idempotent directory registration -/

theorem startTailing_already (sid : List Byte → Option String)
    (files : List (String × List Byte)) (w : SessionWatcher) (path : String)
    (h : (findVal w.activeSessions path).isSome = true) :
    startTailing sid files w path = (w, []) := by
  simp [startTailing, h]

theorem startTailing_nofile (sid : List Byte → Option String)
    (files : List (String × List Byte)) (w : SessionWatcher) (path : String)
    (h : findVal files path = none) :
    startTailing sid files w path = (w, []) := by
  by_cases h1 : (findVal w.activeSessions path).isSome = true
  · simp [startTailing, h1]
  · simp [startTailing, h1, h]

theorem startTailing_sessions_mono (sid : List Byte → Option String)
    (files : List (String × List Byte)) (w : SessionWatcher) (path p : String)
    (v : SessionTail) (h : findVal w.activeSessions p = some v) :
    findVal (startTailing sid files w path).1.activeSessions p = some v := by
  unfold startTailing
  split
  · exact h
  · split
    · exact h
    · exact findVal_append_left _ _ _ _ h

theorem startTailing_watched (sid : List Byte → Option String)
    (files : List (String × List Byte)) (w : SessionWatcher) (path : String) :
    (startTailing sid files w path).1.watchedPaths = w.watchedPaths ∧
      (startTailing sid files w path).1.notifierAdds = w.notifierAdds := by
  unfold startTailing
  split
  · exact ⟨rfl, rfl⟩
  · split
    · exact ⟨rfl, rfl⟩
    · exact ⟨rfl, rfl⟩

theorem startTailing_settles (sid : List Byte → Option String)
    (files : List (String × List Byte)) (w : SessionWatcher) (path : String) :
    (findVal (startTailing sid files w path).1.activeSessions path).isSome = true ∨
      findVal files path = none := by
  by_cases h1 : (findVal w.activeSessions path).isSome = true
  · left
    obtain ⟨v, hv⟩ := Option.isSome_iff_exists.mp h1
    rw [startTailing_sessions_mono sid files w path path v hv]
    rfl
  · cases hf : findVal files path with
    | none => right; rfl
    | some content =>
      left
      have hnone : findVal w.activeSessions path = none :=
        Option.not_isSome_iff_eq_none.mp h1
      simp only [startTailing, h1, Bool.false_eq_true, if_false, hf]
      rw [findVal_append_right _ _ _ hnone]
      simp [findVal]

theorem startTailing_settled_noop (sid : List Byte → Option String)
    (files : List (String × List Byte)) (w : SessionWatcher) (path : String)
    (h : (findVal w.activeSessions path).isSome = true ∨
      findVal files path = none) :
    startTailing sid files w path = (w, []) := by
  rcases h with h | h
  · exact startTailing_already sid files w path h
  · exact startTailing_nofile sid files w path h

theorem foldl_tailingStep_mono (sid : List Byte → Option String)
    (files : List (String × List Byte)) :
    ∀ (ps : List String) (acc : SessionWatcher × List WEvent) (p : String)
      (v : SessionTail),
    findVal acc.1.activeSessions p = some v →
    findVal ((ps.foldl (tailingStep sid files) acc).1).activeSessions p = some v := by
  intro ps
  induction ps with
  | nil => intro acc p v h; exact h
  | cons q qs ih =>
    intro acc p v h
    exact ih _ p v (startTailing_sessions_mono sid files acc.1 q p v h)

theorem foldl_tailingStep_settles (sid : List Byte → Option String)
    (files : List (String × List Byte)) :
    ∀ (ps : List String) (acc : SessionWatcher × List WEvent), ∀ p ∈ ps,
    (findVal ((ps.foldl (tailingStep sid files) acc).1).activeSessions p).isSome
        = true ∨
      findVal files p = none := by
  intro ps
  induction ps with
  | nil => intro acc p hp; cases hp
  | cons q qs ih =>
    intro acc p hp
    rcases List.mem_cons.mp hp with hp | hp
    · subst hp
      rcases startTailing_settles sid files acc.1 p with hs | hs
      · left
        obtain ⟨v, hv⟩ := Option.isSome_iff_exists.mp hs
        have hm := foldl_tailingStep_mono sid files qs
          (tailingStep sid files acc p) p v hv
        rw [List.foldl_cons]
        rw [hm]
        rfl
      · right; exact hs
    · rw [List.foldl_cons]
      exact ih _ p hp

theorem foldl_tailingStep_watched (sid : List Byte → Option String)
    (files : List (String × List Byte)) :
    ∀ (ps : List String) (acc : SessionWatcher × List WEvent),
    ((ps.foldl (tailingStep sid files) acc).1).watchedPaths =
        acc.1.watchedPaths ∧
      ((ps.foldl (tailingStep sid files) acc).1).notifierAdds =
        acc.1.notifierAdds := by
  intro ps
  induction ps with
  | nil => intro acc; exact ⟨rfl, rfl⟩
  | cons q qs ih =>
    intro acc
    obtain ⟨ih1, ih2⟩ := ih (tailingStep sid files acc q)
    obtain ⟨hw1, hw2⟩ := startTailing_watched sid files acc.1 q
    rw [List.foldl_cons]
    exact ⟨by rw [ih1]; exact hw1, by rw [ih2]; exact hw2⟩

theorem foldl_tailingStep_noop (sid : List Byte → Option String)
    (files : List (String × List Byte)) :
    ∀ (ps : List String) (w : SessionWatcher) (evs : List WEvent),
    (∀ p ∈ ps, (findVal w.activeSessions p).isSome = true ∨
      findVal files p = none) →
    ps.foldl (tailingStep sid files) (w, evs) = (w, evs) := by
  intro ps
  induction ps with
  | nil => intro w evs _; rfl
  | cons q qs ih =>
    intro w evs h
    have hq := startTailing_settled_noop sid files w q
      (h q (List.mem_cons_self _ _))
    rw [List.foldl_cons,
      show tailingStep sid files (w, evs) q = (w, evs) by
        simp [tailingStep, hq]]
    exact ih w evs (fun p hp => h p (List.mem_cons_of_mem _ hp))

/-- C9 (confirmed): a second `WatchDirectory` call with the same directory
and pattern after a successful first call is a no-op — the returned state is
unchanged (in particular `watcher.Add` is not called again: the
`notifierAdds` log is the same, and no tail state is added for any file), and
no events are emitted, so nothing is duplicated. -/
theorem watchDirectory_idempotent (sid : List Byte → Option String)
    (glob : String → String → List String) (fs : Fs) (home : String)
    (w : SessionWatcher) (dir pattern : String) (w1 : SessionWatcher)
    (evs1 : List WEvent)
    (h : watchDirectory sid glob fs home w dir pattern = .ok (w1, evs1)) :
    watchDirectory sid glob fs home w1 dir pattern = .ok (w1, []) := by
  simp only [watchDirectory] at h ⊢
  by_cases hlen : dir.length < 2
  · rw [if_pos hlen] at h; cases h
  · rw [if_neg hlen] at h ⊢
    by_cases hdirs :
        (if dir.take 2 = "~/" then home ++ "/" ++ dir.drop 2 else dir) ∉ fs.dirs
    · rw [if_pos hdirs] at h; cases h
    · rw [if_neg hdirs] at h ⊢
      have hfold := Except.ok.inj h
      have hw1eq : w1 = (List.foldl (tailingStep sid fs.files)
          (if (if dir.take 2 = "~/" then home ++ "/" ++ dir.drop 2 else dir) ∈
              w.watchedPaths then w
            else
              { w with
                watchedPaths := w.watchedPaths ++
                  [if dir.take 2 = "~/" then home ++ "/" ++ dir.drop 2 else dir]
                notifierAdds := w.notifierAdds ++
                  [if dir.take 2 = "~/" then home ++ "/" ++ dir.drop 2 else
                    dir] }, [])
          (glob (if dir.take 2 = "~/" then home ++ "/" ++ dir.drop 2 else dir)
            pattern)).1 := by
        rw [hfold]
      have hW1watch :
          (if dir.take 2 = "~/" then home ++ "/" ++ dir.drop 2 else dir) ∈
            (if (if dir.take 2 = "~/" then home ++ "/" ++ dir.drop 2 else dir) ∈
                w.watchedPaths then w
              else
                { w with
                  watchedPaths := w.watchedPaths ++
                    [if dir.take 2 = "~/" then home ++ "/" ++ dir.drop 2 else dir]
                  notifierAdds := w.notifierAdds ++
                    [if dir.take 2 = "~/" then home ++ "/" ++ dir.drop 2 else
                      dir] }).watchedPaths := by
        by_cases hw : (if dir.take 2 = "~/" then home ++ "/" ++ dir.drop 2
            else dir) ∈ w.watchedPaths
        · rw [if_pos hw]; exact hw
        · rw [if_neg hw]; simp
      have hmem : (if dir.take 2 = "~/" then home ++ "/" ++ dir.drop 2 else dir) ∈
          w1.watchedPaths := by
        rw [hw1eq, (foldl_tailingStep_watched sid fs.files _ _).1]
        exact hW1watch
      rw [if_pos hmem]
      have hsettled : ∀ p ∈ glob
          (if dir.take 2 = "~/" then home ++ "/" ++ dir.drop 2 else dir) pattern,
          (findVal w1.activeSessions p).isSome = true ∨
            findVal fs.files p = none := by
        intro p hp
        rw [hw1eq]
        exact foldl_tailingStep_settles sid fs.files _ _ p hp
      rw [foldl_tailingStep_noop sid fs.files _ w1 [] hsettled]

/-- Witness for C9: a directory `xy` with one matching file; the first call
tracks the file and emits its backlog plus a session-start event, the second
call returns the identical state and no events. -/
theorem watchDirectory_idempotent_witness :
    watchDirectory (fun _ => none) (fun _ _ => ["xy/a.jsonl"])
        ⟨["xy"], [("xy/a.jsonl", [104, 105, 10])]⟩ ""
        ⟨["xy"], ["xy"],
          [("xy/a.jsonl", ⟨"xy/a.jsonl", 3, "", "unknown"⟩)]⟩ "xy" "*.jsonl" =
      .ok (⟨["xy"], ["xy"],
        [("xy/a.jsonl", ⟨"xy/a.jsonl", 3, "", "unknown"⟩)]⟩, []) := by
  exact watchDirectory_idempotent (fun _ => none) (fun _ _ => ["xy/a.jsonl"])
    ⟨["xy"], [("xy/a.jsonl", [104, 105, 10])]⟩ "" ⟨[], [], []⟩ "xy" "*.jsonl"
    ⟨["xy"], ["xy"], [("xy/a.jsonl", ⟨"xy/a.jsonl", 3, "", "unknown"⟩)]⟩
    [⟨"message", "unknown", "", "xy/a.jsonl", [104, 105, 10]⟩,
      ⟨"session_start", "unknown", "", "xy/a.jsonl", []⟩]
    (by rfl)

/-! ## Claim C10 — `WatchDirectory` panics on directories shorter than 2 -/

/-- C10 (confirmed): `WatchDirectory` slices `dir[:2]` before any other
check, so for every directory string shorter than two bytes it panics with a
slice-out-of-range error — it never reaches the "directory does not exist"
error — while for any string of length at least two the slice, and hence
this panic, cannot occur. -/
theorem watchDirectory_short_dir_panics (sid : List Byte → Option String)
    (glob : String → String → List String) (fs : Fs) (home : String)
    (w : SessionWatcher) (dir pattern : String) :
    (dir.length < 2 →
        watchDirectory sid glob fs home w dir pattern = .error .slicePanic) ∧
      (2 ≤ dir.length →
        watchDirectory sid glob fs home w dir pattern ≠ .error .slicePanic) := by
  constructor
  · intro h
    simp [watchDirectory, h]
  · intro h
    have hlt : ¬dir.length < 2 := by omega
    simp only [watchDirectory, hlt, if_false]
    by_cases hd :
        (if dir.take 2 = "~/" then home ++ "/" ++ dir.drop 2 else dir) ∉ fs.dirs
    · rw [if_pos hd]
      intro hx
      simp at hx
    · rw [if_neg hd]
      intro hx
      simp at hx

/-- Witness for C10: the empty string and a one-character directory panic;
a two-character directory does not raise the slice panic. -/
theorem watchDirectory_short_dir_panics_witness :
    watchDirectory (fun _ => none) (fun _ _ => []) ⟨[], []⟩ "" ⟨[], [], []⟩
        "" "*.jsonl" = .error .slicePanic ∧
      watchDirectory (fun _ => none) (fun _ _ => []) ⟨[], []⟩ "" ⟨[], [], []⟩
        "a" "*.jsonl" = .error .slicePanic ∧
      watchDirectory (fun _ => none) (fun _ _ => []) ⟨[], []⟩ "" ⟨[], [], []⟩
        "ab" "*.jsonl" ≠ .error .slicePanic := by
  refine ⟨?_, ?_, ?_⟩
  · exact (watchDirectory_short_dir_panics (fun _ => none) (fun _ _ => [])
      ⟨[], []⟩ "" ⟨[], [], []⟩ "" "*.jsonl").1 (by decide)
  · exact (watchDirectory_short_dir_panics (fun _ => none) (fun _ _ => [])
      ⟨[], []⟩ "" ⟨[], [], []⟩ "a" "*.jsonl").1 (by decide)
  · exact (watchDirectory_short_dir_panics (fun _ => none) (fun _ _ => [])
      ⟨[], []⟩ "" ⟨[], [], []⟩ "ab" "*.jsonl").2 (by decide)

/-! ## Claim C8 — fail-open filtering -/

/-- C8 (confirmed): `FilteredStream`'s wrapped handler forwards every line
whose JSON parse fails — such a line is never dropped (its multiplicity in
the forwarded output equals its multiplicity in the input), and only lines
that parse successfully are subjected to the session/tool/time-range
predicates. -/
theorem filteredStream_fail_open (f : StreamFilter)
    (parse : String → Option ParsedEvent) (lines : List String) (l : String) :
    (parse l = none → filteredForward f parse l = true) ∧
      (parse l = none →
        (filteredOutput f parse lines).count l = lines.count l) ∧
      (∀ e, parse l = some e → filteredForward f parse l = passesFilter f e) := by
  refine ⟨?_, ?_, ?_⟩
  · intro h
    simp [filteredForward, h]
  · intro h
    unfold filteredOutput
    induction lines with
    | nil => rfl
    | cons x xs ih =>
      rw [List.filter_cons]
      by_cases hfx : filteredForward f parse x = true
      · rw [if_pos hfx, List.count_cons, List.count_cons, ih]
      · rw [if_neg hfx, ih, List.count_cons]
        have hxl : ¬(l == x) = true := by
          intro hb
          have hx : l = x := eq_of_beq hb
          rw [← hx] at hfx
          exact hfx (by simp [filteredForward, h])
        have hxl2 : ¬x = l := by
          intro hx
          exact hxl (by rw [hx]; simp)
        simp [hxl, hxl2]
  · intro e h
    simp [filteredForward, h]

/-- Witness for C8: a filter on session "s1"; the unparsable line "junk" is
forwarded and kept at its full multiplicity, while the parsed line "good" is
judged by the filter predicate. -/
theorem filteredStream_fail_open_witness :
    filteredForward ⟨"s1", "", none, none⟩
        (fun l => if l = "good" then some ⟨some "s1", none, none⟩ else none)
        "junk" = true ∧
      (filteredOutput ⟨"s1", "", none, none⟩
          (fun l => if l = "good" then some ⟨some "s1", none, none⟩ else none)
          ["junk", "good"]).count "junk" = (["junk", "good"]).count "junk" ∧
      filteredForward ⟨"s1", "", none, none⟩
          (fun l => if l = "good" then some ⟨some "s1", none, none⟩ else none)
          "good" =
        passesFilter ⟨"s1", "", none, none⟩ ⟨some "s1", none, none⟩ := by
  have h1 := filteredStream_fail_open ⟨"s1", "", none, none⟩
    (fun l => if l = "good" then some ⟨some "s1", none, none⟩ else none)
    ["junk", "good"] "junk"
  have h2 := filteredStream_fail_open ⟨"s1", "", none, none⟩
    (fun l => if l = "good" then some ⟨some "s1", none, none⟩ else none)
    ["junk", "good"] "good"
  exact ⟨h1.1 (by decide), h1.2.1 (by decide), h2.2.2 ⟨some "s1", none, none⟩
    (by decide)⟩

/-! ## Claim C6 — `_audit_shard` names the shard current at entry -/

/-- Counterexample to C6. With the current shard `shard_T0.jsonl` already at
the size limit, `WriteEvent` stamps `_audit_shard` with `shard_T0.jsonl`
(read before `WriteRawLine` runs) — but `WriteRawLine` then rotates, so the
record is actually written into the brand-new `shard_T1.jsonl`, while the
shard it names stays empty. The `_audit_shard` field therefore does not equal
the filename of the shard the record is written into. -/
theorem writeEvent_shard_field_counterexample :
    (writeEvent (newAuditLogger "T0" 0 false) "T1" 0 []).2 =
        [("_audit_timestamp", JVal.num 0),
          ("_audit_shard", JVal.str "shard_T0.jsonl")] ∧
      (writeEvent (newAuditLogger "T0" 0 false) "T1" 0 []).1.currentName =
        "shard_T1.jsonl" ∧
      findVal (closedFiles (writeEvent (newAuditLogger "T0" 0 false)
          "T1" 0 []).1) "shard_T1.jsonl" =
        some (addNewline (strBytes (encodeRec
          [("_audit_timestamp", JVal.num 0),
            ("_audit_shard", JVal.str "shard_T0.jsonl")]))) ∧
      findVal (closedFiles (writeEvent (newAuditLogger "T0" 0 false)
          "T1" 0 []).1) "shard_T0.jsonl" = some [] := by
  refine ⟨by decide, by decide, by decide, by decide⟩

/-- C6 (amended): the record `WriteEvent` writes consists of the
caller-supplied fields plus `_audit_timestamp` (the ingest time) and
`_audit_shard` holding the filename of the shard that is current when
`WriteEvent` begins. That is the shard the record is actually written into
exactly when the write triggers no rotation (current size below the
maximum); when the current shard is already full, the record lands in the
newly rotated shard while `_audit_shard` still names the previous one. -/
theorem writeEvent_metadata (a : AuditLogger) (ts : String) (now : Int)
    (fields : AuditRec) :
    (writeEvent a ts now fields).2 =
        fields ++ [("_audit_timestamp", JVal.num now),
          ("_audit_shard", JVal.str a.currentName)] ∧
      (a.currentSize < a.maxShardSize →
        (writeEvent a ts now fields).1.currentName = a.currentName ∧
        (writeEvent a ts now fields).1.currentBuf =
          a.currentBuf ++
            addNewline (strBytes (encodeRec ((writeEvent a ts now fields).2)))) ∧
      (a.maxShardSize ≤ a.currentSize →
        (writeEvent a ts now fields).1.currentName =
          shardFileName ts a.compressShards ∧
        (writeEvent a ts now fields).1.currentBuf =
          addNewline (strBytes (encodeRec ((writeEvent a ts now fields).2)))) := by
  refine ⟨rfl, ?_, ?_⟩
  · intro h
    have hn : ¬a.maxShardSize ≤ a.currentSize := by omega
    exact ⟨by simp [writeEvent, writeRawLine, hn],
      by simp [writeEvent, writeRawLine, hn]⟩
  · intro h
    exact ⟨by simp [writeEvent, writeRawLine, rotateShard, flushShard, h],
      by simp [writeEvent, writeRawLine, rotateShard, flushShard, h]⟩

/-- Witness for C6's amended theorem: on a fresh logger with room to spare the
record goes into the very shard `_audit_shard` names; on a full logger it
goes into the rotated shard. -/
theorem writeEvent_metadata_witness :
    (writeEvent (newAuditLogger "T0" 100 false) "T1" 7 []).2 =
        [] ++ [("_audit_timestamp", JVal.num 7),
          ("_audit_shard", JVal.str (newAuditLogger "T0" 100 false).currentName)] ∧
      (writeEvent (newAuditLogger "T0" 100 false) "T1" 7 []).1.currentName =
        (newAuditLogger "T0" 100 false).currentName := by
  have h := writeEvent_metadata (newAuditLogger "T0" 100 false) "T1" 7 []
  exact ⟨h.1, (h.2.1 (by decide)).1⟩

end AIMemory
